import Mathlib

/-!
# Verification of the in-memory calendar event store (`src/main.rs`)

Shallow embedding of the Rust HTTP calendar-event service.  The store is a
`Vec<Event>` behind a mutex; handlers parse the request, run `check_event`
(a linear scan for the first element with equal `(date, name)`), and then
mutate or filter the vector.  Timestamps (`chrono::DateTime<Utc>`) are
modelled as integer seconds since the Unix epoch; `NaiveDate` values as
integer day numbers since 1970-01-01.  Civil-calendar conversions model
chrono's proleptic-Gregorian accessors (`year()`, `month()`, `day()`,
`weekday().num_days_from_monday()`).
-/

namespace CalendarSvc

/-- `Event` from `main.rs`: `date: DateTime<Utc>` (modelled as Unix seconds)
and `name: String`. -/
structure Event where
  date : Int
  name : String
deriving DecidableEq, Repr

/-- The day-number (days since 1970-01-01, floored) of a UTC timestamp;
models `DateTime::date_naive()`. -/
def dateNaive (t : Int) : Int :=
  Int.fdiv t 86400

/-- Days since 1970-01-01 of the proleptic-Gregorian civil date `(y, m, d)`
(chrono's calendar). -/
def days_from_civil (y : Int) (m d : Nat) : Int :=
  let y2 : Int := if m ≤ 2 then y - 1 else y
  let era : Int := Int.fdiv y2 400
  let yoe : Int := y2 - era * 400
  let mp : Int := if m ≤ 2 then (m : Int) + 9 else (m : Int) - 3
  let doy : Int := Int.fdiv (153 * mp + 2) 5 + (d : Int) - 1
  let doe : Int := yoe * 365 + Int.fdiv yoe 4 - Int.fdiv yoe 100 + doy
  era * 146097 + doe - 719468

/-- The civil date `(year, month, day)` of a day number since 1970-01-01
(proleptic Gregorian); models chrono's `year()`, `month()`, `day()`. -/
def civil_from_days (z : Int) : Int × Int × Int :=
  let z2 : Int := z + 719468
  let era : Int := Int.fdiv z2 146097
  let doe : Int := z2 - era * 146097
  let yoe : Int :=
    Int.fdiv (doe - Int.fdiv doe 1460 + Int.fdiv doe 36524 - Int.fdiv doe 146096) 365
  let y : Int := yoe + era * 400
  let doy : Int := doe - (365 * yoe + Int.fdiv yoe 4 - Int.fdiv yoe 100)
  let mp : Int := Int.fdiv (5 * doy + 2) 153
  let d : Int := doy - Int.fdiv (153 * mp + 2) 5 + 1
  let m : Int := if mp < 10 then mp + 3 else mp - 9
  (if m ≤ 2 then y + 1 else y, m, d)

/-- `weekday().num_days_from_monday()` for a day number: Monday ↦ 0, …,
Sunday ↦ 6 (1970-01-01 was a Thursday, index 3). -/
def num_days_from_monday (z : Int) : Int :=
  Int.emod (z + 3) 7

/-- `start_of_week` from `main.rs`: `date - Duration::days(num_days_from_monday)`. -/
def start_of_week (z : Int) : Int :=
  z - num_days_from_monday z

/-- The content of a parseable RFC3339 date-time string: a civil date-time
together with its UTC offset in minutes. -/
structure Rfc3339 where
  year : Int
  month : Nat
  day : Nat
  hour : Nat
  minute : Nat
  second : Nat
  offsetMinutes : Int
deriving DecidableEq, Repr

/-- The absolute instant (Unix seconds) denoted by a parseable RFC3339
string; models `DateTime::parse_from_rfc3339(..).with_timezone(&Utc)`. -/
def Rfc3339.toUtc (r : Rfc3339) : Int :=
  days_from_civil r.year r.month r.day * 86400
    + (r.hour : Int) * 3600 + (r.minute : Int) * 60 + (r.second : Int)
    - r.offsetMinutes * 60

/-- A `date_time` field of a request body: either a parseable RFC3339 string
(carrying its content) or an unparseable one. -/
inductive DTField where
  | valid (r : Rfc3339)
  | invalid
deriving DecidableEq, Repr

/-- `DateTime::parse_from_rfc3339` followed by `with_timezone(&Utc)`:
`none` is the parse-error branch (mapped to HTTP 400 by the handlers). -/
def parseDT : DTField → Option Int
  | .valid r => some r.toUtc
  | .invalid => none

/-- `check_event` from `main.rs`: linear scan returning the index of the
first stored event whose `date` and `name` both equal the desired event's. -/
def check_event : List Event → Event → Option Nat
  | [], _ => none
  | e :: es, desired =>
    if e.date = desired.date ∧ e.name = desired.name then some 0
    else (check_event es desired).map (· + 1)

/-- Request body for `/create_event` and `/delete_event` (`EventReq`):
either JSON that fails to deserialize, or a `date_time` field plus an
`event_name` field. -/
inductive EventReqBody where
  | malformed
  | wellFormed (date_time : DTField) (event_name : String)
deriving DecidableEq, Repr

/-- `json_body_parse` from `main.rs`: deserialize `EventReq`, parse its
`date_time` as RFC3339, convert to UTC; `none` is the HTTP 400 branch. -/
def json_body_parse : EventReqBody → Option Event
  | .malformed => none
  | .wellFormed dt n =>
    match parseDT dt with
    | some t => some ⟨t, n⟩
    | none => none

/-- Outcome of `/create_event` (payload data of the JSON response). -/
inductive CreateOutcome where
  | badRequest400
  | conflict503
  | created201 (name : String) (date : Int)
deriving DecidableEq, Repr

/-- `create_event_handler` from `main.rs`: parse the body; if an event with
identical `(date, name)` already exists answer 503, otherwise push the event
and answer 201 naming the event and date. -/
def create_event_handler (store : List Event) (body : EventReqBody) :
    CreateOutcome × List Event :=
  match json_body_parse body with
  | none => (.badRequest400, store)
  | some event =>
    match check_event store event with
    | some _ => (.conflict503, store)
    | none => (.created201 event.name event.date, store ++ [event])

/-- Request body for `/update_event` (`EventUpdateReq`). -/
inductive UpdateReqBody where
  | malformed
  | wellFormed (date_time : DTField) (event_name : String)
      (new_date_time : DTField) (new_event_name : String)
deriving DecidableEq, Repr

/-- Outcome of `/update_event`. -/
inductive UpdateOutcome where
  | badRequest400
  | notFound503
  | ok200 (oldName newName : String)
deriving DecidableEq, Repr

/-- `update_event_handler` from `main.rs`: deserialize; parse `date_time`
(400 on failure); look the `(date, name)` key up with `check_event` (503 if
absent); only then parse `new_date_time` (400 on failure); overwrite the
found index's `date` and `name` in place. -/
def update_event_handler (store : List Event) (body : UpdateReqBody) :
    UpdateOutcome × List Event :=
  match body with
  | .malformed => (.badRequest400, store)
  | .wellFormed dt name ndt nname =>
    match parseDT dt with
    | none => (.badRequest400, store)
    | some t =>
      match check_event store ⟨t, name⟩ with
      | some i =>
        match parseDT ndt with
        | none => (.badRequest400, store)
        | some nt => (.ok200 name nname, store.set i ⟨nt, nname⟩)
      | none => (.notFound503, store)

/-- Outcome of `/delete_event`. -/
inductive DeleteOutcome where
  | badRequest400
  | notFound503
  | removed200 (name : String) (date : Int)
deriving DecidableEq, Repr

/-- `delete_event_handler` from `main.rs`: parse the body; look the key up
with `check_event` (503 if absent); `Vec::remove(i)` the found index. -/
def delete_event_handler (store : List Event) (body : EventReqBody) :
    DeleteOutcome × List Event :=
  match json_body_parse body with
  | none => (.badRequest400, store)
  | some event =>
    match check_event store event with
    | some i => (.removed200 event.name event.date, store.eraseIdx i)
    | none => (.notFound503, store)

/-- Filter of `events_for_day_handler`: same civil year, month and day
(UTC) as the queried `NaiveDate` (a day number). -/
def sameDay (t : Int) (q : Int) : Bool :=
  let e := civil_from_days (dateNaive t)
  let d := civil_from_days q
  e.1 == d.1 && e.2.1 == d.2.1 && e.2.2 == d.2.2

/-- `events_for_day_handler` from `main.rs`: the returned list and the
(unchanged) store. -/
def events_for_day_handler (store : List Event) (q : Int) :
    List Event × List Event :=
  (store.filter (fun event => sameDay event.date q), store)

/-- `events_for_week_handler` from `main.rs`: keep events whose
`start_of_week` of the naive date equals the query date's. -/
def events_for_week_handler (store : List Event) (q : Int) :
    List Event × List Event :=
  (store.filter (fun event =>
    start_of_week (dateNaive event.date) == start_of_week q), store)

/-- Filter of `events_for_month_handler`: same civil year and month. -/
def sameMonth (t : Int) (q : Int) : Bool :=
  let e := civil_from_days (dateNaive t)
  let d := civil_from_days q
  e.1 == d.1 && e.2.1 == d.2.1

/-- `events_for_month_handler` from `main.rs`. -/
def events_for_month_handler (store : List Event) (q : Int) :
    List Event × List Event :=
  (store.filter (fun event => sameMonth event.date q), store)

/-- One inbound request, as dispatched by the router in `main`. -/
inductive Op where
  | create (body : EventReqBody)
  | update (body : UpdateReqBody)
  | delete (body : EventReqBody)
  | qday (q : Int)
  | qweek (q : Int)
  | qmonth (q : Int)
deriving DecidableEq, Repr

/-- The store after handling one request (sequential semantics: the handler
holds the mutex for the mutation). -/
def applyOp (store : List Event) : Op → List Event
  | .create body => (create_event_handler store body).2
  | .update body => (update_event_handler store body).2
  | .delete body => (delete_event_handler store body).2
  | .qday q => (events_for_day_handler store q).2
  | .qweek q => (events_for_week_handler store q).2
  | .qmonth q => (events_for_month_handler store q).2

/-- The store after a sequence of requests starting from a given store. -/
def runOps (store : List Event) (ops : List Op) : List Event :=
  ops.foldl applyOp store

/-- The `(date, name)` key of an event. -/
def key (e : Event) : Int × String :=
  (e.date, e.name)

/-- The store invariant claimed by the spec: no two stored events share
their `(date, name)` pair. -/
def distinctKeys (store : List Event) : Prop :=
  (store.map key).Nodup

instance (store : List Event) : Decidable (distinctKeys store) := by
  unfold distinctKeys; infer_instance

/-! ## Helper lemmas about `check_event` -/

theorem key_eq_iff {x e : Event} :
    key x = key e ↔ x.date = e.date ∧ x.name = e.name := by
  simp [key, Prod.ext_iff]

theorem check_event_eq_none {store : List Event} {e : Event} :
    check_event store e = none ↔ ∀ x ∈ store, key x ≠ key e := by
  induction store with
  | nil => simp [check_event]
  | cons a as ih =>
    simp only [check_event]
    by_cases h : a.date = e.date ∧ a.name = e.name
    · simp only [if_pos h, List.mem_cons]
      constructor
      · intro hc; cases hc
      · intro hall
        exact absurd (key_eq_iff.mpr h) (hall a (Or.inl rfl))
    · simp only [if_neg h, Option.map_eq_none', ih, List.mem_cons]
      constructor
      · rintro hall x (rfl | hx)
        · exact fun hk => h (key_eq_iff.mp hk)
        · exact hall x hx
      · intro hall x hx
        exact hall x (Or.inr hx)

theorem check_event_isSome_iff {store : List Event} {e : Event} :
    (check_event store e).isSome = true ↔ ∃ x ∈ store, key x = key e := by
  rw [Option.isSome_iff_ne_none]
  constructor
  · intro h
    by_contra hn
    push_neg at hn
    exact h (check_event_eq_none.mpr fun x hx => hn x hx)
  · intro ⟨x, hx, hk⟩ hnone
    exact check_event_eq_none.mp hnone x hx hk

theorem check_event_eq_some {store : List Event} {e : Event} {i : Nat}
    (h : check_event store e = some i) :
    (∃ x, store[i]? = some x ∧ key x = key e) ∧
      ∀ j, j < i → ∀ y, store[j]? = some y → key y ≠ key e := by
  induction store generalizing i with
  | nil => cases h
  | cons a as ih =>
    simp only [check_event] at h
    by_cases hm : a.date = e.date ∧ a.name = e.name
    · rw [if_pos hm] at h
      cases h
      refine ⟨⟨a, by simp, key_eq_iff.mpr hm⟩, ?_⟩
      intro j hj y hy
      omega
    · rw [if_neg hm] at h
      match hres : check_event as e with
      | none => rw [hres] at h; cases h
      | some i' =>
        rw [hres] at h
        simp only [Option.map_some'] at h
        cases h
        obtain ⟨⟨x, hx, hk⟩, hmin⟩ := ih hres
        refine ⟨⟨x, by simpa using hx, hk⟩, ?_⟩
        intro j hj y hy
        match j with
        | 0 =>
          simp only [List.getElem?_cons_zero, Option.some.injEq] at hy
          subst hy
          exact fun hk' => hm (key_eq_iff.mp hk')
        | j' + 1 =>
          simp only [List.getElem?_cons_succ] at hy
          exact hmin j' (by omega) y hy

/-! ## Claim theorems -/

/-- **C2.** Create fails with Conflict (HTTP 503, store unchanged) iff an
event with identical `(date, name)` already exists; otherwise it appends
the event at the end and succeeds with a confirmation naming the event and
date (HTTP 201); creating the same `(date, name)` twice yields success then
Conflict and the store grows by exactly one. -/
theorem create_conflict_iff_duplicate (store : List Event) (r : Rfc3339)
    (name : String) :
    ((create_event_handler store (.wellFormed (.valid r) name)).1
        = CreateOutcome.conflict503 ↔
      ∃ x ∈ store, key x = key ⟨r.toUtc, name⟩) ∧
    ((create_event_handler store (.wellFormed (.valid r) name)).1
        = CreateOutcome.conflict503 →
      (create_event_handler store (.wellFormed (.valid r) name)).2 = store) ∧
    ((∀ x ∈ store, key x ≠ key ⟨r.toUtc, name⟩) →
      create_event_handler store (.wellFormed (.valid r) name)
        = (CreateOutcome.created201 name r.toUtc, store ++ [⟨r.toUtc, name⟩]) ∧
      (create_event_handler
          (create_event_handler store (.wellFormed (.valid r) name)).2
          (.wellFormed (.valid r) name)).1 = CreateOutcome.conflict503 ∧
      (create_event_handler
          (create_event_handler store (.wellFormed (.valid r) name)).2
          (.wellFormed (.valid r) name)).2
        = (create_event_handler store (.wellFormed (.valid r) name)).2 ∧
      (create_event_handler store (.wellFormed (.valid r) name)).2.length
        = store.length + 1) := by
  have hparse : json_body_parse (.wellFormed (.valid r) name)
      = some ⟨r.toUtc, name⟩ := rfl
  constructor
  · simp only [create_event_handler, hparse]
    match hres : check_event store ⟨r.toUtc, name⟩ with
    | some i =>
      simp only [true_iff]
      have := (check_event_eq_some hres).1
      obtain ⟨x, hx, hk⟩ := this
      exact ⟨x, List.getElem?_mem hx, hk⟩
    | none =>
      simp only [reduceCtorEq, false_iff, not_exists]
      intro x hx
      exact check_event_eq_none.mp hres x hx.1 hx.2
  constructor
  · simp only [create_event_handler, hparse]
    match hres : check_event store ⟨r.toUtc, name⟩ with
    | some i => simp
    | none => simp
  · intro habsent
    have hnone : check_event store ⟨r.toUtc, name⟩ = none :=
      check_event_eq_none.mpr habsent
    have h1 : create_event_handler store (.wellFormed (.valid r) name)
        = (CreateOutcome.created201 name r.toUtc, store ++ [⟨r.toUtc, name⟩]) := by
      simp only [create_event_handler, hparse, hnone]
    have hfound : (check_event (store ++ [⟨r.toUtc, name⟩]) ⟨r.toUtc, name⟩).isSome
        = true :=
      check_event_isSome_iff.mpr ⟨⟨r.toUtc, name⟩, by simp, rfl⟩
    obtain ⟨i, hi⟩ := Option.isSome_iff_exists.mp hfound
    refine ⟨h1, ?_, ?_, ?_⟩
    · rw [h1]
      simp only [create_event_handler, hparse, hi]
    · rw [h1]
      simp only [create_event_handler, hparse, hi]
    · rw [h1]
      simp

/-- Witness for C2 at a concrete input: store `[⟨86400, "b"⟩]`, request for
1970-01-01T00:00:00Z named "a". -/
theorem create_conflict_iff_duplicate_witness :
    (∀ x ∈ [Event.mk 86400 "b"],
        key x ≠ key ⟨(Rfc3339.mk 1970 1 1 0 0 0 0).toUtc, "a"⟩) ∧
    create_event_handler [Event.mk 86400 "b"]
        (.wellFormed (.valid (Rfc3339.mk 1970 1 1 0 0 0 0)) "a")
      = (CreateOutcome.created201 "a" (Rfc3339.mk 1970 1 1 0 0 0 0).toUtc,
         [Event.mk 86400 "b", Event.mk ((Rfc3339.mk 1970 1 1 0 0 0 0).toUtc) "a"]) :=
  ⟨by decide,
   ((create_conflict_iff_duplicate [Event.mk 86400 "b"]
      (Rfc3339.mk 1970 1 1 0 0 0 0) "a").2.2 (by decide)).1⟩

/-- Number of stored events whose `(date, name)` equals the lookup key. -/
def countKey (store : List Event) (e : Event) : Nat :=
  store.countP (fun x => decide (key x = key e))

theorem countKey_eq_zero_iff {store : List Event} {e : Event} :
    countKey store e = 0 ↔ check_event store e = none := by
  rw [countKey, List.countP_eq_zero, check_event_eq_none]
  simp

theorem countKey_eraseIdx {store : List Event} {e : Event} {i : Nat}
    (h : check_event store e = some i) :
    countKey (store.eraseIdx i) e + 1 = countKey store e := by
  induction store generalizing i with
  | nil => cases h
  | cons a as ih =>
    simp only [check_event] at h
    by_cases hm : a.date = e.date ∧ a.name = e.name
    · rw [if_pos hm] at h
      cases h
      simp only [List.eraseIdx_cons_zero, countKey, List.countP_cons,
        decide_eq_true_eq]
      rw [if_pos (key_eq_iff.mpr hm)]
    · rw [if_neg hm] at h
      match hres : check_event as e with
      | none => rw [hres] at h; cases h
      | some i' =>
        rw [hres] at h
        simp only [Option.map_some'] at h
        cases h
        have := ih hres
        simp only [List.eraseIdx_cons_succ, countKey, List.countP_cons,
          decide_eq_true_eq] at this ⊢
        rw [if_neg (fun hk => hm (key_eq_iff.mp hk))]
        omega

/-- **C3.** Update locates the event equal to the `(date, name)` lookup key
by linear scan; with no match it answers NotFound (HTTP 503) and leaves the
store unchanged; with a match at index `i` it overwrites that event's date
and name in place (same position, same length, all other events unchanged)
and answers 200 describing old and new values. -/
theorem update_in_place (store : List Event) (r nr : Rfc3339)
    (name nname : String) :
    (check_event store ⟨r.toUtc, name⟩ = none →
      update_event_handler store (.wellFormed (.valid r) name (.valid nr) nname)
        = (UpdateOutcome.notFound503, store)) ∧
    (∀ i, check_event store ⟨r.toUtc, name⟩ = some i →
      update_event_handler store (.wellFormed (.valid r) name (.valid nr) nname)
          = (UpdateOutcome.ok200 name nname, store.set i ⟨nr.toUtc, nname⟩) ∧
      (store.set i ⟨nr.toUtc, nname⟩).length = store.length ∧
      (store.set i ⟨nr.toUtc, nname⟩)[i]? = some ⟨nr.toUtc, nname⟩ ∧
      ∀ j, j ≠ i → (store.set i ⟨nr.toUtc, nname⟩)[j]? = store[j]?) := by
  constructor
  · intro hnone
    simp only [update_event_handler, parseDT, hnone]
  · intro i hi
    have hlt : i < store.length := by
      obtain ⟨x, hx, -⟩ := (check_event_eq_some hi).1
      exact (List.getElem?_eq_some_iff.mp hx).1
    refine ⟨?_, by simp, List.getElem?_set_self hlt, ?_⟩
    · simp only [update_event_handler, parseDT, hi]
    · intro j hj
      exact List.getElem?_set_ne (fun h => hj h.symm)

/-- Witness for C3: updating `⟨0, "a"⟩` (stored at index 0 of a two-event
store) to `⟨86400, "b"⟩` rewrites index 0 in place and leaves index 1 alone. -/
theorem update_in_place_witness :
    check_event [Event.mk 0 "a", Event.mk 7 "c"]
        ⟨(Rfc3339.mk 1970 1 1 0 0 0 0).toUtc, "a"⟩ = some 0 ∧
    update_event_handler [Event.mk 0 "a", Event.mk 7 "c"]
        (.wellFormed (.valid (Rfc3339.mk 1970 1 1 0 0 0 0)) "a"
          (.valid (Rfc3339.mk 1970 1 2 0 0 0 0)) "b")
      = (UpdateOutcome.ok200 "a" "b",
         ([Event.mk 0 "a", Event.mk 7 "c"].set 0
           ⟨(Rfc3339.mk 1970 1 2 0 0 0 0).toUtc, "b"⟩)) :=
  ⟨by decide,
   ((update_in_place [Event.mk 0 "a", Event.mk 7 "c"]
      (Rfc3339.mk 1970 1 1 0 0 0 0) (Rfc3339.mk 1970 1 2 0 0 0 0)
      "a" "b").2 0 (by decide)).1⟩

/-- **C4.** Delete answers NotFound (HTTP 503, store unchanged) when no
stored event matches the `(date, name)` key; with a match at index `i` it
removes exactly that event by index (`Vec::remove`), dropping the count by
one and keeping the remaining events' relative order; when the key occurred
at most once, deleting again with the same key answers NotFound. -/
theorem delete_removes_one (store : List Event) (r : Rfc3339) (name : String) :
    (check_event store ⟨r.toUtc, name⟩ = none →
      delete_event_handler store (.wellFormed (.valid r) name)
        = (DeleteOutcome.notFound503, store)) ∧
    (∀ i, check_event store ⟨r.toUtc, name⟩ = some i →
      delete_event_handler store (.wellFormed (.valid r) name)
          = (DeleteOutcome.removed200 name r.toUtc, store.eraseIdx i) ∧
      (store.eraseIdx i).length + 1 = store.length ∧
      (store.eraseIdx i).Sublist store ∧
      (countKey store ⟨r.toUtc, name⟩ ≤ 1 →
        delete_event_handler (store.eraseIdx i) (.wellFormed (.valid r) name)
          = (DeleteOutcome.notFound503, store.eraseIdx i))) := by
  have hparse : json_body_parse (.wellFormed (.valid r) name)
      = some ⟨r.toUtc, name⟩ := rfl
  constructor
  · intro hnone
    simp only [delete_event_handler, hparse, hnone]
  · intro i hi
    have hlt : i < store.length := by
      obtain ⟨x, hx, -⟩ := (check_event_eq_some hi).1
      exact (List.getElem?_eq_some_iff.mp hx).1
    refine ⟨?_, ?_, List.eraseIdx_sublist store i, ?_⟩
    · simp only [delete_event_handler, hparse, hi]
    · rw [List.length_eraseIdx_of_lt hlt]
      omega
    · intro hcount
      have hz : countKey (store.eraseIdx i) ⟨r.toUtc, name⟩ = 0 := by
        have := countKey_eraseIdx hi
        omega
      have hnone2 := countKey_eq_zero_iff.mp hz
      simp only [delete_event_handler, hparse, hnone2]

/-- Witness for C4: deleting `⟨0, "a"⟩` from a two-event store removes it,
and deleting it again answers NotFound. -/
theorem delete_removes_one_witness :
    check_event [Event.mk 0 "a", Event.mk 7 "c"]
        ⟨(Rfc3339.mk 1970 1 1 0 0 0 0).toUtc, "a"⟩ = some 0 ∧
    countKey [Event.mk 0 "a", Event.mk 7 "c"]
        ⟨(Rfc3339.mk 1970 1 1 0 0 0 0).toUtc, "a"⟩ ≤ 1 ∧
    delete_event_handler [Event.mk 0 "a", Event.mk 7 "c"]
        (.wellFormed (.valid (Rfc3339.mk 1970 1 1 0 0 0 0)) "a")
      = (DeleteOutcome.removed200 "a" (Rfc3339.mk 1970 1 1 0 0 0 0).toUtc,
         [Event.mk 0 "a", Event.mk 7 "c"].eraseIdx 0) ∧
    delete_event_handler ([Event.mk 0 "a", Event.mk 7 "c"].eraseIdx 0)
        (.wellFormed (.valid (Rfc3339.mk 1970 1 1 0 0 0 0)) "a")
      = (DeleteOutcome.notFound503, [Event.mk 0 "a", Event.mk 7 "c"].eraseIdx 0) :=
  ⟨by decide, by decide,
   ((delete_removes_one [Event.mk 0 "a", Event.mk 7 "c"]
      (Rfc3339.mk 1970 1 1 0 0 0 0) "a").2 0 (by decide)).1,
   ((delete_removes_one [Event.mk 0 "a", Event.mk 7 "c"]
      (Rfc3339.mk 1970 1 1 0 0 0 0) "a").2 0 (by decide)).2.2.2 (by decide)⟩

/-- **C10.** When several stored events match the `(date, name)` key (a
state update can reach, since it never re-checks duplicates), `check_event`
returns the lowest matching index, and update/delete act exactly on that
index: update rewrites only index `i` and delete erases only index `i`
(`eraseIdx i = take i ++ drop (i+1)`), so later matching events stay. -/
theorem lookup_acts_on_first_match (store : List Event) (r nr : Rfc3339)
    (name nname : String) (i : Nat)
    (h : check_event store ⟨r.toUtc, name⟩ = some i) :
    (∃ x, store[i]? = some x ∧ key x = key ⟨r.toUtc, name⟩) ∧
    (∀ j, j < i → ∀ y, store[j]? = some y → key y ≠ key ⟨r.toUtc, name⟩) ∧
    (update_event_handler store
        (.wellFormed (.valid r) name (.valid nr) nname)).2
      = store.set i ⟨nr.toUtc, nname⟩ ∧
    (delete_event_handler store (.wellFormed (.valid r) name)).2
      = store.eraseIdx i ∧
    (∀ j, j ≠ i → (store.set i ⟨nr.toUtc, nname⟩)[j]? = store[j]?) ∧
    store.eraseIdx i = store.take i ++ store.drop (i + 1) := by
  obtain ⟨hex, hmin⟩ := check_event_eq_some h
  refine ⟨hex, hmin, ?_, ?_, ?_, List.eraseIdx_eq_take_drop_succ store i⟩
  · simp only [update_event_handler, parseDT, h]
  · simp only [delete_event_handler, json_body_parse, parseDT, h]
  · intro j hj
    exact List.getElem?_set_ne (fun h' => hj h'.symm)

/-- Witness for C10: with the duplicate-bearing store
`[⟨5, "x"⟩, ⟨0, "a"⟩, ⟨0, "a"⟩]`, the lookup returns index 1 (the first
match) and delete erases exactly index 1, leaving the later duplicate. -/
theorem lookup_acts_on_first_match_witness :
    check_event [Event.mk 5 "x", Event.mk 0 "a", Event.mk 0 "a"]
        ⟨(Rfc3339.mk 1970 1 1 0 0 0 0).toUtc, "a"⟩ = some 1 ∧
    (delete_event_handler [Event.mk 5 "x", Event.mk 0 "a", Event.mk 0 "a"]
        (.wellFormed (.valid (Rfc3339.mk 1970 1 1 0 0 0 0)) "a")).2
      = [Event.mk 5 "x", Event.mk 0 "a", Event.mk 0 "a"].eraseIdx 1 :=
  ⟨by decide,
   (lookup_acts_on_first_match
      [Event.mk 5 "x", Event.mk 0 "a", Event.mk 0 "a"]
      (Rfc3339.mk 1970 1 1 0 0 0 0) (Rfc3339.mk 1970 1 1 0 0 0 0)
      "a" "b" 1 (by decide)).2.2.2.1⟩

/-- **C6.** The day query returns exactly the stored events whose UTC
calendar `(year, month, day)` equals the queried date's, in stored
(insertion) order without re-sorting, and leaves the store unmodified. -/
theorem day_query_exact (store : List Event) (q : Int) :
    ((events_for_day_handler store q).1
        = store.filter (fun ev => sameDay ev.date q)) ∧
    (∀ e, e ∈ (events_for_day_handler store q).1 ↔
        e ∈ store ∧ sameDay e.date q = true) ∧
    (∀ t, sameDay t q = true ↔
        civil_from_days (dateNaive t) = civil_from_days q) ∧
    (events_for_day_handler store q).1.Sublist store ∧
    (events_for_day_handler store q).2 = store := by
  refine ⟨rfl, ?_, ?_, List.filter_sublist store, rfl⟩
  · intro e
    simp [events_for_day_handler, List.mem_filter]
  · intro t
    simp only [sameDay, Bool.and_eq_true, beq_iff_eq, Prod.ext_iff]
    tauto

/-- Witness for C6: with events at 2024-03-04T10:00:00Z and
2024-03-10T10:00:00Z stored, the day query for 2024-03-04 returns the
first and not the second. -/
theorem day_query_exact_witness :
    Event.mk ((Rfc3339.mk 2024 3 4 10 0 0 0).toUtc) "a"
      ∈ (events_for_day_handler
          [⟨(Rfc3339.mk 2024 3 4 10 0 0 0).toUtc, "a"⟩,
           ⟨(Rfc3339.mk 2024 3 10 10 0 0 0).toUtc, "b"⟩]
          (days_from_civil 2024 3 4)).1 ∧
    (events_for_day_handler
        [⟨(Rfc3339.mk 2024 3 4 10 0 0 0).toUtc, "a"⟩,
         ⟨(Rfc3339.mk 2024 3 10 10 0 0 0).toUtc, "b"⟩]
        (days_from_civil 2024 3 4)).1
      = [⟨(Rfc3339.mk 2024 3 4 10 0 0 0).toUtc, "a"⟩] :=
  ⟨((day_query_exact
      [⟨(Rfc3339.mk 2024 3 4 10 0 0 0).toUtc, "a"⟩,
       ⟨(Rfc3339.mk 2024 3 10 10 0 0 0).toUtc, "b"⟩]
      (days_from_civil 2024 3 4)).2.1 _).mpr ⟨by decide, by decide⟩,
   by decide⟩

/-- **C5.** The week query returns exactly the stored events whose
`start_of_week` (the date minus its Monday-based weekday index, in days)
equals the queried date's; Monday 2024-03-04 and Sunday 2024-03-10 share a
week start while Monday 2024-03-11 does not, so an event at
2024-03-11T00:00:00Z is never returned by the week query for 2024-03-04. -/
theorem week_query_exact (store : List Event) (q : Int) :
    ((events_for_week_handler store q).1
        = store.filter (fun ev =>
            start_of_week (dateNaive ev.date) == start_of_week q)) ∧
    (∀ e, e ∈ (events_for_week_handler store q).1 ↔
        e ∈ store ∧ start_of_week (dateNaive e.date) = start_of_week q) ∧
    (∀ z, start_of_week z = z - num_days_from_monday z) ∧
    start_of_week (days_from_civil 2024 3 10)
      = start_of_week (days_from_civil 2024 3 4) ∧
    start_of_week (days_from_civil 2024 3 11)
      ≠ start_of_week (days_from_civil 2024 3 4) ∧
    ∀ name, Event.mk ((Rfc3339.mk 2024 3 11 0 0 0 0).toUtc) name
      ∉ (events_for_week_handler store (days_from_civil 2024 3 4)).1 := by
  refine ⟨rfl, ?_, fun z => rfl, by decide, by decide, ?_⟩
  · intro e
    simp [events_for_week_handler, List.mem_filter]
  · intro name hmem
    simp only [events_for_week_handler, List.mem_filter] at hmem
    exact absurd hmem.2 (by decide)

/-- Witness for C5: with events on Monday 2024-03-04, Sunday 2024-03-10 and
Monday 2024-03-11 stored, the week query for 2024-03-04 returns exactly the
first two. -/
theorem week_query_exact_witness :
    Event.mk ((Rfc3339.mk 2024 3 10 10 0 0 0).toUtc) "b"
      ∈ (events_for_week_handler
          [⟨(Rfc3339.mk 2024 3 4 10 0 0 0).toUtc, "a"⟩,
           ⟨(Rfc3339.mk 2024 3 10 10 0 0 0).toUtc, "b"⟩,
           ⟨(Rfc3339.mk 2024 3 11 0 0 0 0).toUtc, "c"⟩]
          (days_from_civil 2024 3 4)).1 ∧
    (events_for_week_handler
        [⟨(Rfc3339.mk 2024 3 4 10 0 0 0).toUtc, "a"⟩,
         ⟨(Rfc3339.mk 2024 3 10 10 0 0 0).toUtc, "b"⟩,
         ⟨(Rfc3339.mk 2024 3 11 0 0 0 0).toUtc, "c"⟩]
        (days_from_civil 2024 3 4)).1
      = [⟨(Rfc3339.mk 2024 3 4 10 0 0 0).toUtc, "a"⟩,
         ⟨(Rfc3339.mk 2024 3 10 10 0 0 0).toUtc, "b"⟩] :=
  ⟨((week_query_exact
      [⟨(Rfc3339.mk 2024 3 4 10 0 0 0).toUtc, "a"⟩,
       ⟨(Rfc3339.mk 2024 3 10 10 0 0 0).toUtc, "b"⟩,
       ⟨(Rfc3339.mk 2024 3 11 0 0 0 0).toUtc, "c"⟩]
      (days_from_civil 2024 3 4)).2.1 _).mpr ⟨by decide, by decide⟩,
   by decide⟩

/-- **C9.** Timestamps are normalized to UTC on entry: two parseable
`date_time` strings denoting the same absolute instant under different
offsets yield the same parsed event, so with the same name the first create
succeeds and the second answers Conflict; the stored event is a function of
instant and name only. -/
theorem utc_normalization (r1 r2 : Rfc3339) (name : String)
    (h : r1.toUtc = r2.toUtc) :
    json_body_parse (.wellFormed (.valid r1) name)
      = json_body_parse (.wellFormed (.valid r2) name) ∧
    (∀ store, create_event_handler store (.wellFormed (.valid r1) name)
        = create_event_handler store (.wellFormed (.valid r2) name)) ∧
    (∀ store, (∀ x ∈ store, key x ≠ key ⟨r1.toUtc, name⟩) →
      (create_event_handler store (.wellFormed (.valid r1) name)).1
          = CreateOutcome.created201 name r1.toUtc ∧
      (create_event_handler
          (create_event_handler store (.wellFormed (.valid r1) name)).2
          (.wellFormed (.valid r2) name)).1 = CreateOutcome.conflict503) := by
  have hp : ∀ r : Rfc3339, json_body_parse (.wellFormed (.valid r) name)
      = some ⟨r.toUtc, name⟩ := fun r => rfl
  have hpe : json_body_parse (.wellFormed (.valid r1) name)
      = json_body_parse (.wellFormed (.valid r2) name) := by
    rw [hp, hp, h]
  refine ⟨hpe, ?_, ?_⟩
  · intro store
    simp only [create_event_handler, hp, h]
  · intro store habsent
    have hnone : check_event store ⟨r1.toUtc, name⟩ = none :=
      check_event_eq_none.mpr habsent
    have h1 : create_event_handler store (.wellFormed (.valid r1) name)
        = (CreateOutcome.created201 name r1.toUtc,
           store ++ [⟨r1.toUtc, name⟩]) := by
      simp only [create_event_handler, hp, hnone]
    have hfound : (check_event (store ++ [⟨r1.toUtc, name⟩])
        ⟨r2.toUtc, name⟩).isSome = true :=
      check_event_isSome_iff.mpr
        ⟨⟨r1.toUtc, name⟩, by simp, by simp [key, h]⟩
    obtain ⟨i, hi⟩ := Option.isSome_iff_exists.mp hfound
    refine ⟨by rw [h1], ?_⟩
    rw [h1]
    simp only [create_event_handler, hp, hi]

/-- Witness for C9: `2024-03-04T10:00:00+02:00` and `2024-03-04T08:00:00Z`
denote the same instant, so creating "a" at the first then at the second
(from the empty store) yields success then Conflict. -/
theorem utc_normalization_witness :
    (Rfc3339.mk 2024 3 4 10 0 0 120).toUtc
      = (Rfc3339.mk 2024 3 4 8 0 0 0).toUtc ∧
    (create_event_handler []
        (.wellFormed (.valid (Rfc3339.mk 2024 3 4 10 0 0 120)) "a")).1
      = CreateOutcome.created201 "a" (Rfc3339.mk 2024 3 4 10 0 0 120).toUtc ∧
    (create_event_handler
        (create_event_handler []
          (.wellFormed (.valid (Rfc3339.mk 2024 3 4 10 0 0 120)) "a")).2
        (.wellFormed (.valid (Rfc3339.mk 2024 3 4 8 0 0 0)) "a")).1
      = CreateOutcome.conflict503 :=
  ⟨by decide,
   (utc_normalization (Rfc3339.mk 2024 3 4 10 0 0 120)
      (Rfc3339.mk 2024 3 4 8 0 0 0) "a" (by decide)).2.2 [] (by decide)⟩

/-- Whether a request is an `/update_event` request. -/
def Op.isUpdate : Op → Bool
  | .update _ => true
  | _ => false

theorem applyOp_distinctKeys {store : List Event} {op : Op}
    (hd : distinctKeys store) (hu : op.isUpdate = false) :
    distinctKeys (applyOp store op) := by
  cases op with
  | create body =>
    rcases hp : json_body_parse body with - | ev
    · simp only [applyOp, create_event_handler, hp]
      exact hd
    · rcases hc : check_event store ev with - | i
      · simp only [applyOp, create_event_handler, hp, hc]
        unfold distinctKeys at hd ⊢
        rw [List.map_append, List.nodup_append]
        refine ⟨hd, List.nodup_singleton _, ?_⟩
        intro a ha hb
        simp only [List.map_cons, List.map_nil, List.mem_singleton] at hb
        subst hb
        obtain ⟨x, hx, hkx⟩ := List.mem_map.mp ha
        exact check_event_eq_none.mp hc x hx hkx
      · simp only [applyOp, create_event_handler, hp, hc]
        exact hd
  | update body => simp [Op.isUpdate] at hu
  | delete body =>
    rcases hp : json_body_parse body with - | ev
    · simp only [applyOp, delete_event_handler, hp]
      exact hd
    · rcases hc : check_event store ev with - | i
      · simp only [applyOp, delete_event_handler, hp, hc]
        exact hd
      · simp only [applyOp, delete_event_handler, hp, hc]
        exact List.Nodup.sublist ((List.eraseIdx_sublist store i).map key) hd
  | qday q => exact hd
  | qweek q => exact hd
  | qmonth q => exact hd

theorem runOps_distinctKeys {ops : List Op} :
    ∀ {store : List Event}, distinctKeys store →
      (∀ op ∈ ops, op.isUpdate = false) → distinctKeys (runOps store ops) := by
  induction ops with
  | nil => intro store hd _; exact hd
  | cons op ops ih =>
    intro store hd hall
    exact ih (applyOp_distinctKeys hd (hall op (by simp)))
      (fun o ho => hall o (by simp [ho]))

/-- **C1 counterexample.** The claimed invariant is not preserved by every
operation: from the empty store, creating `(0, "a")` and `(86400, "a")` and
then successfully updating the latter to `(0, "a")` (update never re-checks
for duplicates) leaves two stored events with identical `(date, name)`. -/
theorem update_breaks_distinctKeys :
    (create_event_handler []
        (.wellFormed (.valid ⟨1970, 1, 1, 0, 0, 0, 0⟩) "a")).1
      = CreateOutcome.created201 "a" 0 ∧
    (create_event_handler [⟨0, "a"⟩]
        (.wellFormed (.valid ⟨1970, 1, 2, 0, 0, 0, 0⟩) "a")).1
      = CreateOutcome.created201 "a" 86400 ∧
    (update_event_handler [⟨0, "a"⟩, ⟨86400, "a"⟩]
        (.wellFormed (.valid ⟨1970, 1, 2, 0, 0, 0, 0⟩) "a"
          (.valid ⟨1970, 1, 1, 0, 0, 0, 0⟩) "a")).1
      = UpdateOutcome.ok200 "a" "a" ∧
    runOps []
        [.create (.wellFormed (.valid ⟨1970, 1, 1, 0, 0, 0, 0⟩) "a"),
         .create (.wellFormed (.valid ⟨1970, 1, 2, 0, 0, 0, 0⟩) "a"),
         .update (.wellFormed (.valid ⟨1970, 1, 2, 0, 0, 0, 0⟩) "a"
           (.valid ⟨1970, 1, 1, 0, 0, 0, 0⟩) "a")]
      = [⟨0, "a"⟩, ⟨0, "a"⟩] ∧
    ¬ distinctKeys
        (runOps []
          [.create (.wellFormed (.valid ⟨1970, 1, 1, 0, 0, 0, 0⟩) "a"),
           .create (.wellFormed (.valid ⟨1970, 1, 2, 0, 0, 0, 0⟩) "a"),
           .update (.wellFormed (.valid ⟨1970, 1, 2, 0, 0, 0, 0⟩) "a"
             (.valid ⟨1970, 1, 1, 0, 0, 0, 0⟩) "a")]) := by
  refine ⟨rfl, rfl, rfl, rfl, ?_⟩
  decide

/-- **C1 (amended).** The no-duplicate-`(date, name)` invariant is preserved
by create, delete, and the three queries; hence it holds after any sequence
of requests containing no update, starting from the empty store.  (Update,
which never re-checks for duplicates, can break it.) -/
theorem distinctKeys_preserved_without_update :
    (∀ (store : List Event) (op : Op), distinctKeys store →
        op.isUpdate = false → distinctKeys (applyOp store op)) ∧
    (∀ ops : List Op, (∀ op ∈ ops, op.isUpdate = false) →
        distinctKeys (runOps [] ops)) :=
  ⟨fun _ _ hd hu => applyOp_distinctKeys hd hu,
   fun _ hall => runOps_distinctKeys (by simp [distinctKeys]) hall⟩

/-- Witness for the amended C1: a concrete update-free request sequence
(two creates and a delete) ends with pairwise-distinct `(date, name)` keys. -/
theorem distinctKeys_preserved_without_update_witness :
    (∀ op ∈ [Op.create (.wellFormed (.valid ⟨1970, 1, 1, 0, 0, 0, 0⟩) "a"),
             Op.create (.wellFormed (.valid ⟨1970, 1, 2, 0, 0, 0, 0⟩) "a"),
             Op.delete (.wellFormed (.valid ⟨1970, 1, 1, 0, 0, 0, 0⟩) "a")],
        op.isUpdate = false) ∧
    distinctKeys
      (runOps []
        [Op.create (.wellFormed (.valid ⟨1970, 1, 1, 0, 0, 0, 0⟩) "a"),
         Op.create (.wellFormed (.valid ⟨1970, 1, 2, 0, 0, 0, 0⟩) "a"),
         Op.delete (.wellFormed (.valid ⟨1970, 1, 1, 0, 0, 0, 0⟩) "a")]) :=
  ⟨by decide,
   distinctKeys_preserved_without_update.2
     [Op.create (.wellFormed (.valid ⟨1970, 1, 1, 0, 0, 0, 0⟩) "a"),
      Op.create (.wellFormed (.valid ⟨1970, 1, 2, 0, 0, 0, 0⟩) "a"),
      Op.delete (.wellFormed (.valid ⟨1970, 1, 1, 0, 0, 0, 0⟩) "a")]
     (by decide)⟩

/-- **C7 counterexample.** An `/update_event` request whose `new_date_time`
is unparseable is not always answered with 400: when the `(date_time,
event_name)` lookup key is absent from the store (here: the empty store),
the handler answers NotFound (HTTP 503) without ever parsing
`new_date_time`. -/
theorem bad_new_date_not_always_400 :
    update_event_handler []
        (.wellFormed (.valid ⟨1970, 1, 1, 0, 0, 0, 0⟩) "a" .invalid "b")
      = (UpdateOutcome.notFound503, []) ∧
    UpdateOutcome.notFound503 ≠ UpdateOutcome.badRequest400 :=
  ⟨rfl, by decide⟩

/-- **C7 (amended).** Malformed bodies and unparseable `date_time` strings
are answered with HTTP 400 and never reach the store; an unparseable
`new_date_time`, however, is only detected (as 400) after the lookup key is
found — when the key is absent the handler answers NotFound (503) instead.
In every input-error case the store is unchanged. -/
theorem input_errors_rejected (store : List Event) :
    (update_event_handler store .malformed
        = (UpdateOutcome.badRequest400, store)) ∧
    (∀ name ndt nname,
      update_event_handler store (.wellFormed .invalid name ndt nname)
        = (UpdateOutcome.badRequest400, store)) ∧
    (∀ (r : Rfc3339) name nname,
      check_event store ⟨r.toUtc, name⟩ ≠ none →
        update_event_handler store (.wellFormed (.valid r) name .invalid nname)
          = (UpdateOutcome.badRequest400, store)) ∧
    (∀ (r : Rfc3339) name nname,
      check_event store ⟨r.toUtc, name⟩ = none →
        update_event_handler store (.wellFormed (.valid r) name .invalid nname)
          = (UpdateOutcome.notFound503, store)) ∧
    (create_event_handler store .malformed
        = (CreateOutcome.badRequest400, store)) ∧
    (∀ name, create_event_handler store (.wellFormed .invalid name)
        = (CreateOutcome.badRequest400, store)) ∧
    (delete_event_handler store .malformed
        = (DeleteOutcome.badRequest400, store)) ∧
    (∀ name, delete_event_handler store (.wellFormed .invalid name)
        = (DeleteOutcome.badRequest400, store)) := by
  refine ⟨rfl, fun name ndt nname => rfl, ?_, ?_, rfl, fun name => rfl, rfl,
    fun name => rfl⟩
  · intro r name nname hfound
    obtain ⟨i, hi⟩ := Option.isSome_iff_exists.mp
      (Option.isSome_iff_ne_none.mpr hfound)
    simp only [update_event_handler, parseDT, hi]
  · intro r name nname hnone
    simp only [update_event_handler, parseDT, hnone]

/-- Witness for the amended C7: on the one-event store `[⟨0, "a"⟩]`, the
update request naming that key with an unparseable `new_date_time` is
answered 400 with the store unchanged. -/
theorem input_errors_rejected_witness :
    check_event [Event.mk 0 "a"]
        ⟨(Rfc3339.mk 1970 1 1 0 0 0 0).toUtc, "a"⟩ ≠ none ∧
    update_event_handler [Event.mk 0 "a"]
        (.wellFormed (.valid (Rfc3339.mk 1970 1 1 0 0 0 0)) "a" .invalid "b")
      = (UpdateOutcome.badRequest400, [Event.mk 0 "a"]) :=
  ⟨by decide,
   (input_errors_rejected [Event.mk 0 "a"]).2.2.1
     (Rfc3339.mk 1970 1 1 0 0 0 0) "a" "b" (by decide)⟩

/-! ## Interleaving model of concurrent `/create_event` requests

`create_event_handler` takes the mutex twice: once inside `check_event`
(the duplicate scan) and once for the `push`.  Each acquisition is one
atomic step; between the two, other requests may run. -/

/-- Phase of an in-flight create request: `ready` (not yet checked),
`checked found` (duplicate scan done under the first lock), `done created`
(201 pushed, or 503 Conflict). -/
inductive Phase where
  | ready
  | checked (found : Bool)
  | done (created : Bool)
deriving DecidableEq, Repr

/-- Shared state: the store plus each in-flight create request's event and
phase. -/
structure ConcState where
  store : List Event
  tasks : List (Event × Phase)
deriving DecidableEq, Repr

/-- One atomic step (one lock acquisition) of create request `i`:
`ready → checked` runs `check_event` under the first lock;
`checked false → done true` pushes under the second lock;
`checked true → done false` answers Conflict without touching the store. -/
def concStep (s : ConcState) (i : Nat) : ConcState :=
  match s.tasks[i]? with
  | some (e, Phase.ready) =>
    { s with
      tasks := s.tasks.set i (e, Phase.checked (check_event s.store e).isSome) }
  | some (e, Phase.checked false) =>
    { store := s.store ++ [e], tasks := s.tasks.set i (e, Phase.done true) }
  | some (e, Phase.checked true) =>
    { s with tasks := s.tasks.set i (e, Phase.done false) }
  | some (_, Phase.done _) => s
  | none => s

/-- Run a schedule (sequence of per-lock atomic steps, named by request
index). -/
def runSched (s : ConcState) (sched : List Nat) : ConcState :=
  sched.foldl concStep s

/-- N concurrent create requests racing against the empty store. -/
def initConc (events : List Event) : ConcState :=
  ⟨[], events.map (fun e => (e, Phase.ready))⟩

/-- Every in-flight request has finished. -/
def allDone (s : ConcState) : Prop :=
  ∀ t ∈ s.tasks, ∃ b, t.2 = Phase.done b

instance (s : ConcState) : Decidable (allDone s) := by
  unfold allDone
  infer_instance

/-- **C8 counterexample.** The lock is not held for an operation's full
duration: after schedule `[0]` request 0 has finished its duplicate check
(store still empty), and after `[0, 1, 1]` request 1 has checked and pushed
in between — the store request 0 saw at its check differs from the store at
its mutation.  Consequence: two creates of the *same* key can interleave as
`[0, 1, 0, 1]` so that both succeed and the store ends with a duplicate,
which exclusive access for the full duration would forbid. -/
theorem check_and_push_not_atomic :
    (runSched (initConc [⟨0, "a"⟩, ⟨0, "b"⟩]) [0]).store = [] ∧
    (runSched (initConc [⟨0, "a"⟩, ⟨0, "b"⟩]) [0]).tasks[0]?
      = some (⟨0, "a"⟩, Phase.checked false) ∧
    (runSched (initConc [⟨0, "a"⟩, ⟨0, "b"⟩]) [0, 1, 1]).store = [⟨0, "b"⟩] ∧
    (runSched (initConc [⟨0, "a"⟩, ⟨0, "b"⟩]) [0, 1, 1]).tasks[0]?
      = some (⟨0, "a"⟩, Phase.checked false) ∧
    runSched (initConc [⟨0, "a"⟩, ⟨0, "a"⟩]) [0, 1, 0, 1]
      = ⟨[⟨0, "a"⟩, ⟨0, "a"⟩],
         [(⟨0, "a"⟩, Phase.done true), (⟨0, "a"⟩, Phase.done true)]⟩ ∧
    ¬ distinctKeys (runSched (initConc [⟨0, "a"⟩, ⟨0, "a"⟩]) [0, 1, 0, 1]).store := by
  refine ⟨rfl, rfl, rfl, rfl, rfl, ?_⟩
  decide

/-! ### The surviving concurrent-creates guarantee -/

theorem key_injective {a b : Event} (h : key a = key b) : a = b := by
  cases a; cases b
  simpa [key, Prod.ext_iff, Event.mk.injEq] using h

theorem getElem?_decomp {α : Type _} {l : List α} {i : Nat} {a : α}
    (h : l[i]? = some a) :
    l = l.take i ++ a :: l.drop (i + 1) := by
  induction l generalizing i with
  | nil => simp at h
  | cons x xs ih =>
    match i with
    | 0 =>
      simp only [List.getElem?_cons_zero, Option.some.injEq] at h
      subst h
      simp
    | i + 1 =>
      simp only [List.getElem?_cons_succ] at h
      simpa using ih h

theorem set_decomp {α : Type _} {l : List α} {i : Nat} {a : α}
    (h : l[i]? = some a) (b : α) :
    l.set i b = l.take i ++ b :: l.drop (i + 1) := by
  induction l generalizing i with
  | nil => simp at h
  | cons x xs ih =>
    match i with
    | 0 => simp
    | i + 1 =>
      simp only [List.getElem?_cons_succ] at h
      simpa using ih h

/-- The events already pushed: those of requests that reached `done true`. -/
def donePushed (tasks : List (Event × Phase)) : List Event :=
  tasks.filterMap (fun t =>
    match t.2 with
    | Phase.done true => some t.1
    | _ => none)

theorem mem_donePushed {tasks : List (Event × Phase)} {x : Event} :
    x ∈ donePushed tasks ↔ (x, Phase.done true) ∈ tasks := by
  simp only [donePushed, List.mem_filterMap]
  constructor
  · rintro ⟨⟨xe, xp⟩, hm, hf⟩
    match xp with
    | Phase.ready => simp at hf
    | Phase.checked b => simp at hf
    | Phase.done false => simp at hf
    | Phase.done true =>
      simp only [Option.some.injEq] at hf
      subst hf
      exact hm
  · intro hm
    exact ⟨(x, Phase.done true), hm, rfl⟩

theorem donePushed_all_done : ∀ {tasks : List (Event × Phase)},
    (∀ t ∈ tasks, t.2 = Phase.done true) →
    donePushed tasks = tasks.map Prod.fst := by
  intro tasks
  induction tasks with
  | nil => intro _; rfl
  | cons t rest ih =>
    intro h
    obtain ⟨e, p⟩ := t
    have ht := h (e, p) (by simp)
    simp only at ht
    subst ht
    have hrest := ih (fun u hu => h u (by simp [hu]))
    simp only [donePushed] at hrest ⊢
    simp [List.filterMap_cons, hrest]

/-- Invariant of the interleaving model, for pairwise-distinct events: the
task list still carries the original events; the store is (up to order) the
multiset of already-pushed events; and no request has ever seen its key
present (no `checked true` / `done false` phase is reachable). -/
def ConcInv (events : List Event) (s : ConcState) : Prop :=
  s.tasks.map Prod.fst = events ∧
  s.store.Perm (donePushed s.tasks) ∧
  ∀ t ∈ s.tasks,
    t.2 = Phase.ready ∨ t.2 = Phase.checked false ∨ t.2 = Phase.done true

theorem concInv_step {events : List Event} (hnd : (events.map key).Nodup)
    {s : ConcState} (inv : ConcInv events s) (i : Nat) :
    ConcInv events (concStep s i) := by
  obtain ⟨hmap, hperm, hgood⟩ := inv
  have hndev : events.Nodup := List.Nodup.of_map key hnd
  rcases hti : s.tasks[i]? with - | ⟨e, p⟩
  · simp only [concStep, hti]
    exact ⟨hmap, hperm, hgood⟩
  · have hmem : (e, p) ∈ s.tasks := List.getElem?_mem hti
    have hdecomp : s.tasks = s.tasks.take i ++ (e, p) :: s.tasks.drop (i + 1) :=
      getElem?_decomp hti
    have hlen : i < s.tasks.length := (List.getElem?_eq_some_iff.mp hti).1
    rcases hgood (e, p) hmem with hp | hp | hp <;> simp only at hp <;> subst hp
    · -- `ready`: the duplicate scan runs; it must come out negative
      have hnotfound : (check_event s.store e).isSome = false := by
        by_contra hb
        rw [Bool.not_eq_false] at hb
        obtain ⟨x, hx, hkx⟩ := check_event_isSome_iff.mp hb
        have hxe : x = e := key_injective hkx
        subst hxe
        have hx' : (x, Phase.done true) ∈ s.tasks :=
          mem_donePushed.mp (hperm.mem_iff.mp hx)
        obtain ⟨j, hj⟩ := List.getElem?_of_mem hx'
        have hij : i ≠ j := by
          intro hij
          rw [← hij, hti] at hj
          simp at hj
        have hevi : events[i]? = some x := by
          rw [← hmap, List.getElem?_map, hti, Option.map_some']
        have hevj : events[j]? = some x := by
          rw [← hmap, List.getElem?_map, hj, Option.map_some']
        have hilen : i < events.length := by
          rw [← hmap, List.length_map]
          exact hlen
        exact hij (List.getElem?_inj hilen hndev (hevi.trans hevj.symm))
      simp only [concStep, hti, hnotfound]
      refine ⟨?_, ?_, ?_⟩
      · rw [set_decomp hti (e, Phase.checked false), ← hmap]
        conv_rhs => rw [hdecomp]
        simp
      · rw [set_decomp hti (e, Phase.checked false)]
        have hdp : donePushed
            (s.tasks.take i ++ (e, Phase.checked false) :: s.tasks.drop (i + 1))
            = donePushed s.tasks := by
          conv_rhs => rw [hdecomp]
          simp [donePushed, List.filterMap_append, List.filterMap_cons]
        rw [hdp]
        exact hperm
      · intro t ht
        rcases List.mem_or_eq_of_mem_set ht with h | h
        · exact hgood t h
        · subst h
          right; left; rfl
    · -- `checked false`: the push runs under the second lock
      simp only [concStep, hti]
      refine ⟨?_, ?_, ?_⟩
      · rw [set_decomp hti (e, Phase.done true), ← hmap]
        conv_rhs => rw [hdecomp]
        simp
      · rw [set_decomp hti (e, Phase.done true)]
        have hdpnew : donePushed
            (s.tasks.take i ++ (e, Phase.done true) :: s.tasks.drop (i + 1))
            = donePushed (s.tasks.take i) ++ e :: donePushed (s.tasks.drop (i + 1)) := by
          simp [donePushed, List.filterMap_append, List.filterMap_cons]
        have hdpold : donePushed s.tasks
            = donePushed (s.tasks.take i) ++ donePushed (s.tasks.drop (i + 1)) := by
          conv_lhs => rw [hdecomp]
          simp [donePushed, List.filterMap_append, List.filterMap_cons]
        rw [hdpnew]
        have hstep : (s.store ++ [e]).Perm (donePushed s.tasks ++ [e]) :=
          hperm.append_right [e]
        rw [hdpold] at hstep
        refine hstep.trans ?_
        rw [List.append_assoc]
        refine List.Perm.append_left _ ?_
        have hcomm := @List.perm_append_comm Event
          (donePushed (s.tasks.drop (i + 1))) [e]
        simp only [List.singleton_append] at hcomm
        exact hcomm
      · intro t ht
        rcases List.mem_or_eq_of_mem_set ht with h | h
        · exact hgood t h
        · subst h
          right; right; rfl
    · -- `done true`: finished requests never touch the state again
      simp only [concStep, hti]
      exact ⟨hmap, hperm, hgood⟩

theorem concInv_runSched {events : List Event} (hnd : (events.map key).Nodup)
    {s : ConcState} (inv : ConcInv events s) (sched : List Nat) :
    ConcInv events (runSched s sched) := by
  induction sched generalizing s with
  | nil => exact inv
  | cons j rest ih => exact ih (concInv_step hnd inv j)

theorem map_fst_allReady (events : List Event) :
    (events.map fun e => (e, Phase.ready)).map Prod.fst = events := by
  induction events with
  | nil => rfl
  | cons e rest ih => simp [ih]

theorem concInv_init (events : List Event) : ConcInv events (initConc events) := by
  refine ⟨map_fst_allReady events, ?_, ?_⟩
  · have hdp : donePushed (events.map fun e => (e, Phase.ready)) = [] := by
      induction events with
      | nil => rfl
      | cons e rest ih =>
        simp only [donePushed, List.map_cons, List.filterMap_cons] at ih ⊢
        exact ih
    simp only [initConc, hdp]
    exact List.Perm.refl []
  · intro t ht
    simp only [initConc, List.mem_map] at ht
    obtain ⟨e, -, rfl⟩ := ht
    left; rfl

/-- **C8 (amended).** Each mutex acquisition is exclusive, but create runs
its duplicate check and its push under two separate acquisitions, so other
requests can run between them (see the counterexample).  Still, for any
number of concurrent creates with pairwise-distinct `(date, name)` keys,
every complete interleaving of the per-lock atomic steps ends with all N
requests succeeding and the store holding exactly those N events — none
lost, none duplicated. -/
theorem concurrent_distinct_creates (events : List Event)
    (hnd : (events.map key).Nodup) (sched : List Nat)
    (hdone : allDone (runSched (initConc events) sched)) :
    (∀ t ∈ (runSched (initConc events) sched).tasks, t.2 = Phase.done true) ∧
    (runSched (initConc events) sched).store.Perm events ∧
    (runSched (initConc events) sched).store.length = events.length := by
  obtain ⟨hmap, hperm, hgood⟩ :=
    concInv_runSched hnd (concInv_init events) sched
  have halltrue : ∀ t ∈ (runSched (initConc events) sched).tasks,
      t.2 = Phase.done true := by
    intro t ht
    rcases hgood t ht with hp | hp | hp
    · obtain ⟨b, hb⟩ := hdone t ht
      rw [hp] at hb
      cases hb
    · obtain ⟨b, hb⟩ := hdone t ht
      rw [hp] at hb
      cases hb
    · exact hp
  have hperm2 : (runSched (initConc events) sched).store.Perm events := by
    rw [donePushed_all_done halltrue, hmap] at hperm
    exact hperm
  exact ⟨halltrue, hperm2, hperm2.length_eq⟩

/-- Witness for the amended C8: two distinct-key creates interleaved as
check, check, push, push both succeed and the store ends with exactly the
two events. -/
theorem concurrent_distinct_creates_witness :
    ([Event.mk 0 "a", Event.mk 1 "b"].map key).Nodup ∧
    allDone (runSched (initConc [Event.mk 0 "a", Event.mk 1 "b"]) [0, 1, 0, 1]) ∧
    (runSched (initConc [Event.mk 0 "a", Event.mk 1 "b"]) [0, 1, 0, 1]).store.Perm
      [Event.mk 0 "a", Event.mk 1 "b"] :=
  ⟨by decide, by decide,
   (concurrent_distinct_creates [Event.mk 0 "a", Event.mk 1 "b"] (by decide)
      [0, 1, 0, 1] (by decide)).2.1⟩

end CalendarSvc
